import Mathlib

/-!
Verification of pbm2brundlefab.c: a converter from type-4 (binary raster)
PBM bitmaps to a toolpath command stream for a 12-jet spraying fabricator.

The development embeds the program shallowly:

* output lines are modelled by the inductive `Line` (the `T0`, `G0`, `T1`,
  `G1` lines printed with fprintf);
* `emit_toolmask` mirrors the C function of the same name, with physical
  coordinates carried exactly in `ℚ` (the float constant 3.15f is taken at
  its decimal value 63/20, as all claims about coordinates are stated up to
  floating-point tolerance);
* the driver loop of `main` is `pbm2brundlefab`, a fold over the row
  indices; the contents the C program obtains from `malloc` for the
  toolmask accumulator are an explicit parameter `init`, since `malloc`
  does not clear memory;
* the base64 encoder (`base64_of` / `base64_emit`, present in the source
  inside a disabled preprocessor block) is embedded with the same 16-bit
  `buff` / `bit` state machine, the `uint16_t` truncation written as
  `% 65536`.
-/

/-- Output lines of the converter, one constructor per fprintf shape:
tool select `T0`, positioning `G0 X.. Y.. ; Line ..`, fire-pattern select
`T1 P..`, and spray motion `G1 Y..`. -/
inductive Line where
  | T0 : Line
  | G0 (x y : ℚ) (line : ℕ) : Line
  | T1 (p : ℕ) : Line
  | G1 (y : ℚ) : Line
deriving DecidableEq, Repr

/-- MM_PER_ROW from the source: the float literal 3.15f, as a rational. -/
def MM_PER_ROW : ℚ := 63 / 20

/-- First loop of emit_toolmask, walking the remaining entries with their
index: the least index ≥ i of a nonzero toolmask entry, or the total width
when every remaining entry is zero (the C loop leaves i = width then). -/
def firstNonzeroFrom : List ℕ → ℕ → ℕ
  | [], i => i
  | v :: tm, i => if v ≠ 0 then i else firstNonzeroFrom tm (i + 1)

/-- Index of the first nonzero toolmask entry, or the width if none. -/
def firstNonzero (toolmask : List ℕ) : ℕ := firstNonzeroFrom toolmask 0

/-- Second loop of emit_toolmask: scan from index i with the current run
starting at origin; close the run (emit a T1/G1 pair) whenever the value
changes or the scan reaches index width - 1, and restart the run there.
The loop counter n = width - i makes the recursion structural: the loop
body runs exactly while i < width, i.e. while n > 0. -/
def emitRuns (toolmask : List ℕ) (width : ℕ) (mm_per_col : ℚ) :
    ℕ → ℕ → ℕ → List Line
  | _, _, 0 => []
  | origin, i, n + 1 =>
    if toolmask.getD origin 0 ≠ toolmask.getD i 0 ∨ i = width - 1 then
      Line.T1 (toolmask.getD origin 0) ::
      Line.G1 (((origin : ℤ) + (i : ℤ) - 1 : ℤ) * mm_per_col) ::
      emitRuns toolmask width mm_per_col i (i + 1) n
    else
      emitRuns toolmask width mm_per_col origin (i + 1) n

/-- emit_toolmask from the source: skip a fully blank row; otherwise print
`T0`, a `G0` positioning line at the first nonzero column, and the run
scan. The row's width is the length of the toolmask list. -/
def emit_toolmask (toolmask : List ℕ) (toolbits line : ℕ) : List Line :=
  let width := toolmask.length
  let mm_per_col : ℚ := MM_PER_ROW / toolbits
  let origin := firstNonzero toolmask
  if origin = width then []
  else
    Line.T0 ::
    Line.G0 (((line / toolbits : ℕ) : ℚ) * MM_PER_ROW)
      ((origin : ℚ) * mm_per_col) line ::
    emitRuns toolmask width mm_per_col origin (origin + 1) (width - (origin + 1))

/-- Values carried by the T1 (fire-pattern select) lines of an output. -/
def patternsOf (ls : List Line) : List ℕ :=
  ls.filterMap fun l =>
    match l with
    | Line.T1 p => some p
    | _ => none

/-- Coordinates carried by the G1 (spray motion) lines of an output. -/
def sprayYs (ls : List Line) : List ℚ :=
  ls.filterMap fun l =>
    match l with
    | Line.G1 y => some y
    | _ => none

/-- Inner loop of the row conversion in main: walking the toolmask entries
with their column index j, OR bit `bit` into entry j exactly when byte
j >>> 3 of the row has bit 7 - (j &&& 7) set (columns are MSB-first). -/
def accumFrom (row : List ℕ) (bit : ℕ) : ℕ → List ℕ → List ℕ
  | _, [] => []
  | j, v :: tm =>
      (if (row.getD (j >>> 3) 0) &&& (1 <<< (7 - (j &&& 7))) ≠ 0 then
        v ||| (1 <<< bit)
      else v) :: accumFrom row bit (j + 1) tm

/-- Accumulation of one bitmap row into the toolmask accumulator at row
offset `bit` within the band (main's for-loop over j). -/
def accumulate (toolmask row : List ℕ) (bit : ℕ) : List ℕ :=
  accumFrom row bit 0 toolmask

/-- Jet count: the source fixes `int toolbits = 12`. -/
def toolbits : ℕ := 12

/-- State of main's row loop: the live toolmask accumulator, the flush
events so far (each records the `line` argument passed to emit_toolmask
and the toolmask contents handed over), and the index of the first row
whose fread came short, if any. -/
structure RunState where
  toolmask : List ℕ
  flushes : List (ℕ × List ℕ)
  badRow : Option ℕ
deriving DecidableEq, Repr

/-- One iteration of main's row loop at row index i: check the read,
accumulate, and on the last row of a band flush and clear (memset). After
an input error the program has returned, so the state is left unchanged. -/
def rowStep (x stride : ℕ) (rows : List (List ℕ)) (st : RunState) (i : ℕ) :
    RunState :=
  if st.badRow.isSome then st
  else
    let row := rows.getD i []
    if row.length ≠ stride then { st with badRow := some i }
    else
      let bit := i % toolbits
      let tm := accumulate st.toolmask row bit
      if bit = toolbits - 1 then
        { toolmask := List.replicate x 0, flushes := st.flushes ++ [(i, tm)],
          badRow := none }
      else { st with toolmask := tm }

/-- Result of a run of the program: the flush events (calls to
emit_toolmask, in order), whether a diagnostic went to stderr, and whether
the process exited with success. -/
structure RunResult where
  flushes : List (ℕ × List ℕ)
  err : Bool
  ok : Bool
deriving DecidableEq, Repr

/-- Text the flushes print on stdout: each flush event runs emit_toolmask
on the recorded toolmask with the recorded line number. -/
def outputOf (flushes : List (ℕ × List ℕ)) : List Line :=
  flushes.flatMap fun p => emit_toolmask p.2 toolbits p.1

/-- main from the source. `hdr` is the parsed header (`none` when fscanf
could not match all three fields), `rows` the byte rows fread yields, and
`init` the contents malloc returned for the toolmask accumulator. After
the loop the final flush runs exactly when `y % toolbits ≠ toolbits - 1`
(the source tests `i % toolbits != toolbits - 1` with `i = y`). -/
def pbm2brundlefab (hdr : Option (ℕ × ℕ × ℕ)) (rows : List (List ℕ))
    (init : List ℕ) : RunResult :=
  match hdr with
  | none => ⟨[], true, false⟩
  | some (type, x, y) =>
    if type ≠ 4 then ⟨[], true, false⟩
    else
      let stride := (x + 7) / 8
      let final := (List.range y).foldl (rowStep x stride rows)
        ⟨init, [], none⟩
      match final.badRow with
      | some _ => ⟨final.flushes, true, false⟩
      | none =>
        if y % toolbits ≠ toolbits - 1 then
          ⟨final.flushes ++ [(y, final.toolmask)], false, true⟩
        else ⟨final.flushes, false, true⟩

/-! ## Spec-side reference definitions

The specification describes the scan of a toolmask row as a partition into
maximal runs of equal value. The following definitions state that
decomposition in the spec's terms, to be compared with the emission loop
translated from the source above. -/

/-- Run-length encoding of a list: the maximal runs of equal adjacent
values, each as (value, length), in order. -/
def rleSpec : List ℕ → List (ℕ × ℕ)
  | [] => []
  | a :: l =>
    match rleSpec l with
    | [] => [(a, 1)]
    | (b, n) :: r => if a = b then (a, n + 1) :: r else (a, 1) :: (b, n) :: r

/-- Values of the maximal runs of a list, in order. -/
def specRunValues (l : List ℕ) : List ℕ := (rleSpec l).map Prod.fst

/-- Length of the last maximal run of a list (0 for the empty list). -/
def lastRunLen (l : List ℕ) : ℕ := ((rleSpec l).getLast?.map Prod.snd).getD 0

/-- Helper for the bridge between the emission scan and the run
decomposition: scanSpec v l is the list of run values the source loop
closes when the open run has value v and the columns l are still to be
scanned (the last column always closes the open run, and the run restarted
at the last column is never closed). -/
def scanSpec (v : ℕ) : List ℕ → List ℕ
  | [] => []
  | [_] => [v]
  | a :: b :: l => if a ≠ v then v :: scanSpec a (b :: l) else scanSpec v (b :: l)

/-! ## Base64 encoder

Source lines 38-80 hold base64_of and base64_emit inside a
preprocessor-disabled block; they are embedded as written. -/

/-- base64_of from the source: var &= 0x3f, then the standard alphabet
A-Z, a-z, 0-9, '+', '/'. -/
def base64_of (var : ℕ) : Char :=
  let v := var % 64
  if v < 26 then Char.ofNat (v + 65)
  else if v < 52 then Char.ofNat (v - 26 + 97)
  else if v < 62 then Char.ofNat (v - 52 + 48)
  else if v = 62 then '+'
  else '/'

/-- while (bit >= 6) loop of base64_emit: print the six bits below
position bit, lower bit by 6, repeat. The loop counter equals bit (each
pass needs bit ≥ 6 and lowers it by 6), making the recursion structural;
returned are the printed characters and the final bit count. -/
def b64drain (buff : ℕ) : ℕ → ℕ → List Char × ℕ
  | bit, 0 => ([], bit)
  | bit, n + 1 =>
    if 6 ≤ bit then
      let r := b64drain buff (bit - 6) n
      (base64_of (buff >>> (bit - 6)) :: r.1, r.2)
    else ([], bit)

/-- One pass of base64_emit's for loop: shift the uint16_t buffer left by
8 (truncating to 16 bits), OR in the next byte, add 8 to bit, and drain.
Returns the new (buff, bit) state and the printed characters. -/
def b64byte (st : ℕ × ℕ) (b : ℕ) : (ℕ × ℕ) × List Char :=
  let buff := ((st.1 <<< 8) % 65536) ||| b
  let r := b64drain buff (st.2 + 8) (st.2 + 8)
  ((buff, r.2), r.1)

/-- base64_emit's for loop over the payload bytes: the printed characters
and the final (buff, bit) state. -/
def b64loop : ℕ × ℕ → List ℕ → List Char × (ℕ × ℕ)
  | st, [] => ([], st)
  | st, b :: bs =>
    let r := b64byte st b
    let rest := b64loop r.1 bs
    (r.2 ++ rest.1, rest.2)

/-- Tail of base64_emit: 2 leftover bits print one more character and
two '=' pads, 4 leftover bits one character and one pad. The shifted
buffer is promoted to int before reaching base64_of, so no uint16_t
truncation applies in the shifts here. -/
def b64tail (st : ℕ × ℕ) : List Char :=
  if st.2 = 2 then [base64_of (st.1 <<< 4), '=', '=']
  else if st.2 = 4 then [base64_of (st.1 <<< 2), '=']
  else []

/-- base64_emit from the source: encode the byte payload and terminate
the printed text with a newline. -/
def base64_emit (bytes : List ℕ) : List Char :=
  (b64loop (0, 0) bytes).1 ++ b64tail (b64loop (0, 0) bytes).2 ++ ['\n']

/-- Membership in the standard base64 alphabet (spec side). -/
def isB64Char (c : Char) : Bool :=
  (65 ≤ c.toNat && c.toNat ≤ 90) || (97 ≤ c.toNat && c.toNat ≤ 122) ||
  (48 ≤ c.toNat && c.toNat ≤ 57) || c = '+' || c = '/'

/-- Number of '=' pad characters standard base64 appends for a payload of
n bytes: 0, 2, 1 for n ≡ 0, 1, 2 (mod 3) (spec side). -/
def b64pads (n : ℕ) : ℕ := if n % 3 = 0 then 0 else 3 - n % 3

/-- Numeric value of an alphabet character (spec side, for decoding). -/
def b64value (c : Char) : ℕ :=
  if 65 ≤ c.toNat ∧ c.toNat ≤ 90 then c.toNat - 65
  else if 97 ≤ c.toNat ∧ c.toNat ≤ 122 then c.toNat - 97 + 26
  else if 48 ≤ c.toNat ∧ c.toNat ≤ 57 then c.toNat - 48 + 52
  else if c = '+' then 62
  else 63

/-- Standard base64 decoding (spec side): four characters yield three
bytes; '=' padding in the third or fourth position of the final group
yields one or two bytes instead. -/
def b64decode : List Char → List ℕ
  | c1 :: c2 :: c3 :: c4 :: rest =>
    if c3 = '=' then [b64value c1 * 4 + b64value c2 / 16]
    else if c4 = '=' then
      [b64value c1 * 4 + b64value c2 / 16,
       b64value c2 % 16 * 16 + b64value c3 / 4]
    else
      (b64value c1 * 4 + b64value c2 / 16) ::
      (b64value c2 % 16 * 16 + b64value c3 / 4) ::
      (b64value c3 % 4 * 64 + b64value c4) :: b64decode rest
  | _ => []

/-- Chunked reference form of the encoder used in the equivalence proofs:
three bytes become four characters; one or two leftover bytes become a
'='-padded final group. -/
def b64chunks : List ℕ → List Char
  | [] => []
  | [b1] => [base64_of (b1 / 4), base64_of (b1 % 4 * 16), '=', '=']
  | [b1, b2] => [base64_of (b1 / 4), base64_of (b1 % 4 * 16 + b2 / 16),
                 base64_of (b2 % 16 * 4), '=']
  | b1 :: b2 :: b3 :: bs =>
    base64_of (b1 / 4) :: base64_of (b1 % 4 * 16 + b2 / 16) ::
    base64_of (b2 % 16 * 4 + b3 / 64) :: base64_of (b3 % 64) :: b64chunks bs

/-! ## Run-length decomposition lemmas -/

theorem rleSpec_ne_nil (a : ℕ) (l : List ℕ) : rleSpec (a :: l) ≠ [] := by
  intro h
  unfold rleSpec at h
  rcases hr : rleSpec l with - | ⟨⟨b, n⟩, r⟩ <;> rw [hr] at h
  · simp at h
  · by_cases hab : a = b <;> simp [hab] at h

theorem rleSpec_head (a : ℕ) (l : List ℕ) :
    ∃ k t, rleSpec (a :: l) = (a, k) :: t := by
  unfold rleSpec
  rcases hr : rleSpec l with - | ⟨⟨b, n⟩, r⟩
  · exact ⟨1, [], rfl⟩
  · by_cases hab : a = b
    · subst hab; exact ⟨n + 1, r, by simp⟩
    · exact ⟨1, (b, n) :: r, by simp [hab]⟩

theorem rleSpec_cons_ne {a b : ℕ} (h : a ≠ b) (l : List ℕ) :
    rleSpec (a :: b :: l) = (a, 1) :: rleSpec (b :: l) := by
  obtain ⟨k, t, hk⟩ := rleSpec_head b l
  rw [show rleSpec (a :: b :: l) =
    (match rleSpec (b :: l) with
     | [] => [(a, 1)]
     | (c, n) :: r => if a = c then (a, n + 1) :: r else (a, 1) :: (c, n) :: r)
    from rfl, hk]
  simp [h]

theorem rleSpec_cons_eq (a : ℕ) (l : List ℕ) {k : ℕ} {t : List (ℕ × ℕ)}
    (h : rleSpec (a :: l) = (a, k) :: t) :
    rleSpec (a :: a :: l) = (a, k + 1) :: t := by
  rw [show rleSpec (a :: a :: l) =
    (match rleSpec (a :: l) with
     | [] => [(a, 1)]
     | (c, n) :: r => if a = c then (a, n + 1) :: r else (a, 1) :: (c, n) :: r)
    from rfl, h]
  simp

theorem rleSpec_sum (l : List ℕ) : ((rleSpec l).map Prod.snd).sum = l.length := by
  induction l with
  | nil => rfl
  | cons a l ih =>
    unfold rleSpec
    rcases hr : rleSpec l with - | ⟨⟨b, n⟩, r⟩ <;> rw [hr] at ih
    · simp at ih
      simp [ih]
      omega
    · by_cases hab : a = b <;> simp [hab] <;> simp at ih <;> omega

theorem rleSpec_sum_gt (a : ℕ) (l : List ℕ) {k : ℕ}
    (h : rleSpec (a :: l) = [(a, k)]) : k = l.length + 1 := by
  have := rleSpec_sum (a :: l)
  rw [h] at this
  simpa using this

theorem scanSpec_eq_rle (l : List ℕ) (v : ℕ) :
    scanSpec v l = if lastRunLen (v :: l) = 1
      then (specRunValues (v :: l)).dropLast else specRunValues (v :: l) := by
  induction l generalizing v with
  | nil => simp [scanSpec, lastRunLen, specRunValues, rleSpec]
  | cons a l ih =>
    cases l with
    | nil =>
      by_cases hav : v = a
      · subst hav
        have h1 : rleSpec (v :: v :: ([] : List ℕ)) = (v, 2) :: [] :=
          rleSpec_cons_eq v [] (by simp [rleSpec])
        simp [scanSpec, lastRunLen, specRunValues, h1]
      · have h1 : rleSpec [v, a] = [(v, 1), (a, 1)] := by
          rw [rleSpec_cons_ne hav]; rfl
        simp [scanSpec, lastRunLen, specRunValues, h1]
    | cons b m =>
      by_cases hav : a = v
      · subst hav
        obtain ⟨k, t, hk⟩ := rleSpec_head a (b :: m)
        have h2 := rleSpec_cons_eq a (b :: m) hk
        have hsum := rleSpec_sum (a :: b :: m)
        rw [hk] at hsum
        have hne : scanSpec a (a :: b :: m) = scanSpec a (b :: m) := by
          simp [scanSpec]
        rw [hne, ih a]
        simp only [lastRunLen, specRunValues, hk, h2]
        cases t with
        | nil =>
          simp at hsum
          have hk2 : k ≠ 1 := by omega
          have hk3 : k + 1 ≠ 1 := by omega
          simp [hk2, hk3]
        | cons p t' =>
          simp [List.getLast?_cons_cons]
      · have h1 := rleSpec_cons_ne (fun h => hav h.symm) (b :: m)
        obtain ⟨k, t, hk⟩ := rleSpec_head a (b :: m)
        have hs : scanSpec v (a :: b :: m) = v :: scanSpec a (b :: m) := by
          simp [scanSpec, hav]
        rw [hs, ih a]
        rw [hk] at h1
        simp only [lastRunLen, specRunValues, h1, hk]
        by_cases hlast : ((((a, k) :: t).getLast?).map Prod.snd).getD 0 = 1 <;>
          simp [List.getLast?_cons_cons, hlast]

/-! ## Basic facts about the blank-skip loop -/

theorem firstNonzeroFrom_le (tm : List ℕ) : ∀ i, i ≤ firstNonzeroFrom tm i
    ∧ firstNonzeroFrom tm i ≤ i + tm.length := by
  induction tm with
  | nil => intro i; simp [firstNonzeroFrom]
  | cons v tm ih =>
    intro i
    rw [show firstNonzeroFrom (v :: tm) i =
      (if v ≠ 0 then i else firstNonzeroFrom tm (i + 1)) from rfl]
    by_cases hv : v ≠ 0
    · rw [if_pos hv]
      simp
    · rw [if_neg hv]
      have := ih (i + 1)
      simp only [List.length_cons]
      omega

theorem firstNonzeroFrom_allzero (tm : List ℕ) (h : ∀ v ∈ tm, v = 0) :
    ∀ i, firstNonzeroFrom tm i = i + tm.length := by
  induction tm with
  | nil => intro i; simp [firstNonzeroFrom]
  | cons v tm ih =>
    intro i
    have hv : v = 0 := h v (List.mem_cons_self v tm)
    rw [show firstNonzeroFrom (v :: tm) i =
      (if v ≠ 0 then i else firstNonzeroFrom tm (i + 1)) from rfl]
    rw [if_neg (by simp [hv])]
    rw [ih (fun w hw => h w (List.mem_cons_of_mem v hw)) (i + 1)]
    simp
    omega

theorem firstNonzeroFrom_lastonly (tm : List ℕ) (hne : tm ≠ [])
    (hzero : ∀ j, j < tm.length - 1 → tm.getD j 0 = 0)
    (hlast : tm.getD (tm.length - 1) 0 ≠ 0) :
    ∀ i, firstNonzeroFrom tm i = i + (tm.length - 1) := by
  induction tm with
  | nil => exact absurd rfl hne
  | cons v tm ih =>
    intro i
    cases tm with
    | nil =>
      simp at hlast
      simp [firstNonzeroFrom, hlast]
    | cons w tm' =>
      have hv : v = 0 := hzero 0 (by simp)
      rw [show firstNonzeroFrom (v :: w :: tm') i =
        (if v ≠ 0 then i else firstNonzeroFrom (w :: tm') (i + 1)) from rfl]
      rw [if_neg (by simp [hv])]
      rw [ih (by simp) (fun j hj => hzero (j + 1) (by simp at hj ⊢; omega))
        (by simpa using hlast) (i + 1)]
      simp
      omega

theorem emit_toolmask_blank (tm : List ℕ) (tb ln : ℕ)
    (h : ∀ v ∈ tm, v = 0) : emit_toolmask tm tb ln = [] := by
  have hfz : firstNonzero tm = tm.length := by
    simpa [firstNonzero] using firstNonzeroFrom_allzero tm h 0
  simp [emit_toolmask, hfz]

/-! ## Bridging the emission loops to the run decomposition -/

theorem getD_drop_cons (tm : List ℕ) (i : ℕ) (h : i < tm.length) :
    tm.drop i = tm.getD i 0 :: tm.drop (i + 1) := by
  rw [List.drop_eq_getElem_cons h]
  simp [List.getD_eq_getElem?_getD, List.getElem?_eq_getElem h]

theorem patternsOf_cons_T1 (p : ℕ) (y : ℚ) (rest : List Line) :
    patternsOf (Line.T1 p :: Line.G1 y :: rest) = p :: patternsOf rest := by
  simp [patternsOf]

theorem patternsOf_emitRuns (tm : List ℕ) (c : ℚ) :
    ∀ n o i, i + n = tm.length →
      patternsOf (emitRuns tm tm.length c o i n) =
        scanSpec (tm.getD o 0) (tm.drop i) := by
  intro n
  induction n with
  | zero =>
    intro o i hi
    have : tm.drop i = [] := by
      apply List.drop_eq_nil_of_le
      omega
    simp [emitRuns, this, scanSpec, patternsOf]
  | succ n ih =>
    intro o i hi
    have hilt : i < tm.length := by omega
    have hdrop := getD_drop_cons tm i hilt
    have hstep : emitRuns tm tm.length c o i (n + 1) =
        if tm.getD o 0 ≠ tm.getD i 0 ∨ i = tm.length - 1 then
          Line.T1 (tm.getD o 0) ::
          Line.G1 (((o : ℤ) + (i : ℤ) - 1 : ℤ) * c) ::
          emitRuns tm tm.length c i (i + 1) n
        else emitRuns tm tm.length c o (i + 1) n := rfl
    cases n with
    | zero =>
      have hdrop1 : tm.drop (i + 1) = [] := by
        apply List.drop_eq_nil_of_le
        omega
      rw [hstep, if_pos (Or.inr (by omega)), patternsOf_cons_T1]
      rw [hdrop, hdrop1]
      rfl
    | succ m =>
      have hne : i ≠ tm.length - 1 := by omega
      have hdrop1 := getD_drop_cons tm (i + 1) (by omega)
      have hscan : scanSpec (tm.getD o 0)
          (tm.getD i 0 :: tm.getD (i + 1) 0 :: tm.drop (i + 1 + 1)) =
          if tm.getD i 0 ≠ tm.getD o 0 then
            tm.getD o 0 ::
              scanSpec (tm.getD i 0) (tm.getD (i + 1) 0 :: tm.drop (i + 1 + 1))
          else
            scanSpec (tm.getD o 0)
              (tm.getD (i + 1) 0 :: tm.drop (i + 1 + 1)) := rfl
      by_cases hval : tm.getD o 0 = tm.getD i 0
      · rw [hstep, if_neg (not_or.mpr ⟨not_not.mpr hval, hne⟩)]
        rw [ih o (i + 1) (by omega)]
        rw [hdrop, hdrop1, hscan, if_neg (fun h => h hval.symm), ← hdrop1]
      · rw [hstep, if_pos (Or.inl hval)]
        rw [patternsOf_cons_T1, ih i (i + 1) (by omega)]
        rw [hdrop, hdrop1, hscan, if_pos (fun h => hval h.symm), ← hdrop1]

theorem patternsOf_emit_toolmask (tm : List ℕ) (tb ln : ℕ)
    (h : firstNonzero tm < tm.length) :
    patternsOf (emit_toolmask tm tb ln) =
      if lastRunLen (tm.drop (firstNonzero tm)) = 1
      then (specRunValues (tm.drop (firstNonzero tm))).dropLast
      else specRunValues (tm.drop (firstNonzero tm)) := by
  have hne : ¬(firstNonzero tm = tm.length) := by omega
  have hunfold : emit_toolmask tm tb ln =
      Line.T0 ::
      Line.G0 (((ln / tb : ℕ) : ℚ) * MM_PER_ROW)
        ((firstNonzero tm : ℚ) * (MM_PER_ROW / tb)) ln ::
      emitRuns tm tm.length (MM_PER_ROW / tb) (firstNonzero tm)
        (firstNonzero tm + 1) (tm.length - (firstNonzero tm + 1)) := by
    simp [emit_toolmask, hne]
  rw [hunfold]
  rw [show patternsOf (Line.T0 ::
      Line.G0 (((ln / tb : ℕ) : ℚ) * MM_PER_ROW)
        ((firstNonzero tm : ℚ) * (MM_PER_ROW / tb)) ln ::
      emitRuns tm tm.length (MM_PER_ROW / tb) (firstNonzero tm)
        (firstNonzero tm + 1) (tm.length - (firstNonzero tm + 1))) =
    patternsOf (emitRuns tm tm.length (MM_PER_ROW / tb) (firstNonzero tm)
        (firstNonzero tm + 1) (tm.length - (firstNonzero tm + 1))) from by
    simp [patternsOf]]
  rw [patternsOf_emitRuns tm (MM_PER_ROW / tb) (tm.length - (firstNonzero tm + 1))
    (firstNonzero tm) (firstNonzero tm + 1) (by omega)]
  rw [scanSpec_eq_rle, ← getD_drop_cons tm (firstNonzero tm) h]

theorem sprayY_emitRuns (tm : List ℕ) (c : ℚ) :
    ∀ n o i y, i + n = tm.length → o < i →
      Line.G1 y ∈ emitRuns tm tm.length c o i n →
      ∃ p q, p < q ∧ q < tm.length ∧
        (tm.getD p 0 ≠ tm.getD q 0 ∨ q = tm.length - 1) ∧
        y = (((p : ℤ) + (q : ℤ) - 1 : ℤ) : ℚ) * c := by
  intro n
  induction n with
  | zero =>
    intro o i y hi ho hmem
    simp [emitRuns] at hmem
  | succ n ih =>
    intro o i y hi ho hmem
    rw [show emitRuns tm tm.length c o i (n + 1) =
        if tm.getD o 0 ≠ tm.getD i 0 ∨ i = tm.length - 1 then
          Line.T1 (tm.getD o 0) ::
          Line.G1 (((o : ℤ) + (i : ℤ) - 1 : ℤ) * c) ::
          emitRuns tm tm.length c i (i + 1) n
        else emitRuns tm tm.length c o (i + 1) n from rfl] at hmem
    by_cases hc : tm.getD o 0 ≠ tm.getD i 0 ∨ i = tm.length - 1
    · rw [if_pos hc] at hmem
      rcases List.mem_cons.mp hmem with h1 | h2
      · exact absurd h1 (by simp)
      rcases List.mem_cons.mp h2 with h3 | h4
      · exact ⟨o, i, ho, by omega, hc, Line.G1.inj h3⟩
      · exact ih i (i + 1) y (by omega) (by omega) h4
    · rw [if_neg hc] at hmem
      exact ih o (i + 1) y (by omega) (by omega) hmem

/-! ## Claim C1: run merging -/

/-- C1, counterexample: the toolmask row [5,5,5,7,7,2] does not yield three
fire-pattern commands with values 5, 7, 2; the scan closes only two runs
(values 5 and 7), because reaching the last column closes the open run and
restarts a run at the last column that is never closed. -/
theorem C1_counterexample :
    patternsOf (emit_toolmask [5, 5, 5, 7, 7, 2] 12 0) ≠ [5, 7, 2] ∧
    (patternsOf (emit_toolmask [5, 5, 5, 7, 7, 2] 12 0)).length = 2 := by
  decide

/-- C1, amended: one fire-pattern command is emitted per maximal run of
equal values from the first nonzero column on, except that the final
maximal run is dropped when it consists of the last column alone;
[5,5,5,7,7,2] yields runs 5 and 7 only, and [5,5,5,5] yields one run. -/
theorem C1_amended :
    (∀ tm tb ln, firstNonzero tm < tm.length →
      patternsOf (emit_toolmask tm tb ln) =
        (if lastRunLen (tm.drop (firstNonzero tm)) = 1
         then (specRunValues (tm.drop (firstNonzero tm))).dropLast
         else specRunValues (tm.drop (firstNonzero tm)))) ∧
    patternsOf (emit_toolmask [5, 5, 5, 7, 7, 2] 12 0) = [5, 7] ∧
    patternsOf (emit_toolmask [5, 5, 5, 5] 12 0) = [5] := by
  exact ⟨fun tm tb ln h => patternsOf_emit_toolmask tm tb ln h,
    by decide, by decide⟩

/-- C1, witness: the amended statement instantiated at the nonblank row
[0,3,3,9], whose first nonzero column is 1 and whose final maximal run
occupies the last column alone, so only the run of 3s is emitted. -/
theorem C1_amended_witness :
    firstNonzero [0, 3, 3, 9] < ([0, 3, 3, 9] : List ℕ).length ∧
    patternsOf (emit_toolmask [0, 3, 3, 9] 12 0) =
      (if lastRunLen (([0, 3, 3, 9] : List ℕ).drop (firstNonzero [0, 3, 3, 9])) = 1
       then (specRunValues (([0, 3, 3, 9] : List ℕ).drop (firstNonzero [0, 3, 3, 9]))).dropLast
       else specRunValues (([0, 3, 3, 9] : List ℕ).drop (firstNonzero [0, 3, 3, 9]))) :=
  ⟨by decide, C1_amended.1 [0, 3, 3, 9] 12 0 (by decide)⟩

/-! ## Claim C3: motion coordinates -/

/-- C3, counterexample: in the row [5,5,5,7,7,2] the run of 7s ends at
column 4, and the claim predicts the motion coordinate
4 * 0.2625 = 1.05 = 21/20 for it; the program instead emits
(3 + 5 - 1) * 0.2625 = 147/80 = 1.8375 (run start 3 plus closing scan
column 5 minus one), and no motion line of the band carries 21/20. -/
theorem C3_counterexample :
    emit_toolmask [5, 5, 5, 7, 7, 2] 12 0 =
      [Line.T0, Line.G0 0 0 0,
       Line.T1 5, Line.G1 (21 / 40),
       Line.T1 7, Line.G1 (147 / 80)] ∧
    Line.G1 (21 / 20) ∉ emit_toolmask [5, 5, 5, 7, 7, 2] 12 0 := by
  have h : emit_toolmask [5, 5, 5, 7, 7, 2] 12 0 =
      [Line.T0,
       Line.G0 (((0 : ℕ) : ℚ) * MM_PER_ROW)
         (((0 : ℕ) : ℚ) * (MM_PER_ROW / ((12 : ℕ) : ℚ))) 0,
       Line.T1 5,
       Line.G1 ((((0 : ℤ) + (3 : ℤ) - 1 : ℤ) : ℚ) * (MM_PER_ROW / ((12 : ℕ) : ℚ))),
       Line.T1 7,
       Line.G1 ((((3 : ℤ) + (5 : ℤ) - 1 : ℤ) : ℚ) * (MM_PER_ROW / ((12 : ℕ) : ℚ)))] :=
    rfl
  rw [h]
  constructor
  · norm_num [MM_PER_ROW]
  · intro hmem
    simp only [List.mem_cons, List.not_mem_nil, or_false] at hmem
    rcases hmem with h1 | h1 | h1 | h1 | h1 | h1
    · exact absurd h1 (by simp)
    · exact absurd h1 (by simp)
    · exact absurd h1 (by simp)
    · have h2 := Line.G1.inj h1
      simp only [MM_PER_ROW] at h2
      norm_num at h2
    · exact absurd h1 (by simp)
    · have h2 := Line.G1.inj h1
      simp only [MM_PER_ROW] at h2
      norm_num at h2

/-- C3, amended: with row_pitch 3.15 and 12 jets the column pitch is
0.2625 = 21/80, and every motion line's fast-axis coordinate equals
(run_start_column + closing_scan_column - 1) * col_pitch for the run it
closes (the source computes (origin + i - 1) * mm_per_col), so the run of
7s in [5,5,5,7,7,2] (start 3, closed at scan column 5) gets coordinate
(3 + 5 - 1) * 0.2625 = 1.8375. -/
theorem C3_amended :
    MM_PER_ROW / 12 = 21 / 80 ∧
    (∀ tm tb ln y, Line.G1 y ∈ emit_toolmask tm tb ln →
      ∃ p q, p < q ∧ q < tm.length ∧
        (tm.getD p 0 ≠ tm.getD q 0 ∨ q = tm.length - 1) ∧
        y = (((p : ℤ) + (q : ℤ) - 1 : ℤ) : ℚ) * (MM_PER_ROW / (tb : ℚ))) ∧
    Line.G1 ((((3 : ℤ) + (5 : ℤ) - 1 : ℤ) : ℚ) * (MM_PER_ROW / ((12 : ℕ) : ℚ))) ∈
      emit_toolmask [5, 5, 5, 7, 7, 2] 12 0 := by
  refine ⟨by norm_num [MM_PER_ROW], ?_, ?_⟩
  · intro tm tb ln y hmem
    by_cases hfz : firstNonzero tm = tm.length
    · rw [show emit_toolmask tm tb ln = [] from by simp [emit_toolmask, hfz]] at hmem
      simp at hmem
    · have hlt : firstNonzero tm < tm.length := by
        have h2 := (firstNonzeroFrom_le tm 0).2
        simp only [Nat.zero_add] at h2
        have : firstNonzero tm ≤ tm.length := h2
        omega
      rw [show emit_toolmask tm tb ln =
          Line.T0 ::
          Line.G0 (((ln / tb : ℕ) : ℚ) * MM_PER_ROW)
            ((firstNonzero tm : ℚ) * (MM_PER_ROW / tb)) ln ::
          emitRuns tm tm.length (MM_PER_ROW / tb) (firstNonzero tm)
            (firstNonzero tm + 1) (tm.length - (firstNonzero tm + 1)) from by
        simp [emit_toolmask, hfz]] at hmem
      rcases List.mem_cons.mp hmem with h1 | h2
      · exact absurd h1 (by simp)
      rcases List.mem_cons.mp h2 with h3 | h4
      · exact absurd h3 (by simp)
      exact sprayY_emitRuns tm (MM_PER_ROW / tb)
        (tm.length - (firstNonzero tm + 1)) (firstNonzero tm)
        (firstNonzero tm + 1) y (by omega) (by omega) h4
  · have h : emit_toolmask [5, 5, 5, 7, 7, 2] 12 0 =
      [Line.T0,
       Line.G0 (((0 : ℕ) : ℚ) * MM_PER_ROW)
         (((0 : ℕ) : ℚ) * (MM_PER_ROW / ((12 : ℕ) : ℚ))) 0,
       Line.T1 5,
       Line.G1 ((((0 : ℤ) + (3 : ℤ) - 1 : ℤ) : ℚ) * (MM_PER_ROW / ((12 : ℕ) : ℚ))),
       Line.T1 7,
       Line.G1 ((((3 : ℤ) + (5 : ℤ) - 1 : ℤ) : ℚ) * (MM_PER_ROW / ((12 : ℕ) : ℚ)))] :=
      rfl
    rw [h]
    exact List.mem_cons_of_mem _ (List.mem_cons_of_mem _ (List.mem_cons_of_mem _
      (List.mem_cons_of_mem _ (List.mem_cons_of_mem _ (List.mem_cons_self _ _)))))

/-- C3, witness: the general coordinate form instantiated on the row
[9, 9] at line 0: its single motion line carries
(0 + 1 - 1) * col_pitch = 0 and satisfies the stated break condition. -/
theorem C3_amended_witness :
    Line.G1 ((((0 : ℤ) + (1 : ℤ) - 1 : ℤ) : ℚ) * (MM_PER_ROW / ((12 : ℕ) : ℚ))) ∈
      emit_toolmask [9, 9] 12 0 ∧
    ∃ p q, p < q ∧ q < ([9, 9] : List ℕ).length ∧
      (([9, 9] : List ℕ).getD p 0 ≠ ([9, 9] : List ℕ).getD q 0 ∨
        q = ([9, 9] : List ℕ).length - 1) ∧
      ((((0 : ℤ) + (1 : ℤ) - 1 : ℤ) : ℚ) * (MM_PER_ROW / ((12 : ℕ) : ℚ))) =
        (((p : ℤ) + (q : ℤ) - 1 : ℤ) : ℚ) * (MM_PER_ROW / ((12 : ℕ) : ℚ)) := by
  have h : emit_toolmask [9, 9] 12 0 =
      [Line.T0,
       Line.G0 (((0 : ℕ) : ℚ) * MM_PER_ROW)
         (((0 : ℕ) : ℚ) * (MM_PER_ROW / ((12 : ℕ) : ℚ))) 0,
       Line.T1 9,
       Line.G1 ((((0 : ℤ) + (1 : ℤ) - 1 : ℤ) : ℚ) * (MM_PER_ROW / ((12 : ℕ) : ℚ)))] :=
    rfl
  have hmem : Line.G1 ((((0 : ℤ) + (1 : ℤ) - 1 : ℤ) : ℚ) *
      (MM_PER_ROW / ((12 : ℕ) : ℚ))) ∈ emit_toolmask [9, 9] 12 0 := by
    rw [h]
    exact List.mem_cons_of_mem _ (List.mem_cons_of_mem _
      (List.mem_cons_of_mem _ (List.mem_cons_self _ _)))
  exact ⟨hmem, C3_amended.2.1 [9, 9] 12 0 _ hmem⟩

/-! ## Claim C10: a lone nonzero last column -/

/-- C10: when the first nonzero toolmask entry sits at the last column
(including every nonblank row of width 1), the band prints exactly the
tool-select and positioning lines and no pattern-select or motion line:
the scan loop starts past the last column and never runs. -/
theorem C10_last_column_only (tm : List ℕ) (tb ln : ℕ) (hne : tm ≠ [])
    (hzero : ∀ j, j < tm.length - 1 → tm.getD j 0 = 0)
    (hlast : tm.getD (tm.length - 1) 0 ≠ 0) :
    emit_toolmask tm tb ln =
      [Line.T0,
       Line.G0 (((ln / tb : ℕ) : ℚ) * MM_PER_ROW)
         (((tm.length - 1 : ℕ) : ℚ) * (MM_PER_ROW / (tb : ℚ))) ln] := by
  have hlen : 0 < tm.length := List.length_pos.mpr hne
  have hfz : firstNonzero tm = tm.length - 1 := by
    simpa [firstNonzero] using firstNonzeroFrom_lastonly tm hne hzero hlast 0
  have hne2 : ¬(firstNonzero tm = tm.length) := by omega
  have hunfold : emit_toolmask tm tb ln =
      Line.T0 ::
      Line.G0 (((ln / tb : ℕ) : ℚ) * MM_PER_ROW)
        ((firstNonzero tm : ℚ) * (MM_PER_ROW / tb)) ln ::
      emitRuns tm tm.length (MM_PER_ROW / tb) (firstNonzero tm)
        (firstNonzero tm + 1) (tm.length - (firstNonzero tm + 1)) := by
    simp [emit_toolmask, hne2]
  rw [hunfold, hfz]
  rw [show tm.length - (tm.length - 1 + 1) = 0 from by omega]
  rfl

/-- C10, witness: the width-3 row [0, 0, 5] prints exactly a tool-select
and a positioning line. -/
theorem C10_witness :
    ([0, 0, 5] : List ℕ) ≠ [] ∧
    emit_toolmask [0, 0, 5] 12 0 =
      [Line.T0,
       Line.G0 (((0 / 12 : ℕ) : ℚ) * MM_PER_ROW)
         (((([0, 0, 5] : List ℕ).length - 1 : ℕ) : ℚ) *
           (MM_PER_ROW / ((12 : ℕ) : ℚ))) 0] :=
  ⟨by decide, C10_last_column_only [0, 0, 5] 12 0 (by decide)
    (by decide) (by decide)⟩

/-! ## Driver loop lemmas -/

theorem getD_allzero (row : List ℕ) (h : ∀ b ∈ row, b = 0) (k : ℕ) :
    row.getD k 0 = 0 := by
  induction row generalizing k with
  | nil => simp
  | cons b row ih =>
    cases k with
    | zero => simpa using h b (List.mem_cons_self b row)
    | succ k => simpa using ih (fun w hw => h w (List.mem_cons_of_mem b hw)) k

theorem accumFrom_zero_row (row : List ℕ) (bit : ℕ)
    (h : ∀ b ∈ row, b = 0) : ∀ tm j, accumFrom row bit j tm = tm := by
  intro tm
  induction tm with
  | nil => intro j; rfl
  | cons v tm ih =>
    intro j
    have hz : row.getD (j >>> 3) 0 = 0 := getD_allzero row h _
    rw [show accumFrom row bit j (v :: tm) =
      (if (row.getD (j >>> 3) 0) &&& (1 <<< (7 - (j &&& 7))) ≠ 0 then
        v ||| (1 <<< bit)
      else v) :: accumFrom row bit (j + 1) tm from rfl]
    rw [hz, if_neg (by simp), ih (j + 1)]

theorem outputOf_blank (fl : List (ℕ × List ℕ))
    (h : ∀ p ∈ fl, ∀ v ∈ p.2, v = 0) : outputOf fl = [] := by
  induction fl with
  | nil => rfl
  | cons p fl ih =>
    rw [show outputOf (p :: fl) =
      emit_toolmask p.2 toolbits p.1 ++ outputOf fl from rfl]
    rw [emit_toolmask_blank p.2 toolbits p.1 (h p (List.mem_cons_self p fl)),
      ih (fun q hq => h q (List.mem_cons_of_mem p hq))]
    rfl

theorem rowStep_stuck (x stride : ℕ) (rows : List (List ℕ)) :
    ∀ (l : List ℕ) (st : RunState), st.badRow.isSome →
      l.foldl (rowStep x stride rows) st = st := by
  intro l
  induction l with
  | nil => intro st h; rfl
  | cons i l ih =>
    intro st h
    rw [List.foldl_cons, show rowStep x stride rows st i = st from by
      simp [rowStep, h]]
    exact ih st h

theorem rowStep_ok (x stride : ℕ) (rows : List (List ℕ)) (st : RunState)
    (y : ℕ) (hbad : st.badRow = none)
    (hrow : (rows.getD y []).length = stride) :
    rowStep x stride rows st y =
      if y % toolbits = toolbits - 1 then
        { toolmask := List.replicate x 0,
          flushes := st.flushes ++ [(y, accumulate st.toolmask (rows.getD y []) (y % toolbits))],
          badRow := none }
      else
        { st with toolmask := accumulate st.toolmask (rows.getD y []) (y % toolbits) } := by
  rw [show rowStep x stride rows st y =
    (if st.badRow.isSome then st
     else if (rows.getD y []).length ≠ stride then { st with badRow := some y }
     else if y % toolbits = toolbits - 1 then
       { toolmask := List.replicate x 0,
         flushes := st.flushes ++ [(y, accumulate st.toolmask (rows.getD y []) (y % toolbits))],
         badRow := none }
     else
       { st with toolmask := accumulate st.toolmask (rows.getD y []) (y % toolbits) })
    from rfl]
  rw [if_neg (by simp [hbad]), if_neg (fun hx => hx hrow)]

theorem loop_ok (x stride : ℕ) (rows : List (List ℕ)) (init : List ℕ) :
    ∀ y, (∀ i, i < y → (rows.getD i []).length = stride) →
      ((List.range y).foldl (rowStep x stride rows)
        ⟨init, [], none⟩).badRow = none ∧
      ((List.range y).foldl (rowStep x stride rows)
        ⟨init, [], none⟩).flushes.map Prod.fst =
        (List.range y).filter (fun i => i % toolbits = toolbits - 1) := by
  intro y
  induction y with
  | zero => intro h; exact ⟨rfl, rfl⟩
  | succ y ih =>
    intro h
    obtain ⟨hbad, hmap⟩ := ih (fun i hi => h i (by omega))
    rw [List.range_succ, List.foldl_append, List.foldl_cons, List.foldl_nil,
      List.filter_append]
    rw [rowStep_ok x stride rows _ y hbad (h y (by omega))]
    by_cases hb : y % toolbits = toolbits - 1
    · rw [if_pos hb]
      refine ⟨rfl, ?_⟩
      simp only [List.map_append, hmap]
      simp [hb]
    · rw [if_neg hb]
      refine ⟨hbad, ?_⟩
      simp only [hmap]
      simp [hb]

theorem pbm2brundlefab_of_badRow_none (x y : ℕ) (rows : List (List ℕ))
    (init : List ℕ)
    (hbad : ((List.range y).foldl (rowStep x ((x + 7) / 8) rows)
      ⟨init, [], none⟩).badRow = none) :
    pbm2brundlefab (some (4, x, y)) rows init =
      (if y % toolbits ≠ toolbits - 1 then
        ⟨((List.range y).foldl (rowStep x ((x + 7) / 8) rows)
            ⟨init, [], none⟩).flushes ++
          [(y, ((List.range y).foldl (rowStep x ((x + 7) / 8) rows)
            ⟨init, [], none⟩).toolmask)], false, true⟩
      else ⟨((List.range y).foldl (rowStep x ((x + 7) / 8) rows)
        ⟨init, [], none⟩).flushes, false, true⟩) := by
  have h0 : pbm2brundlefab (some (4, x, y)) rows init =
      (match ((List.range y).foldl (rowStep x ((x + 7) / 8) rows)
          ⟨init, [], none⟩).badRow with
       | some _ => ⟨((List.range y).foldl (rowStep x ((x + 7) / 8) rows)
           ⟨init, [], none⟩).flushes, true, false⟩
       | none =>
         if y % toolbits ≠ toolbits - 1 then
           ⟨((List.range y).foldl (rowStep x ((x + 7) / 8) rows)
               ⟨init, [], none⟩).flushes ++
             [(y, ((List.range y).foldl (rowStep x ((x + 7) / 8) rows)
               ⟨init, [], none⟩).toolmask)], false, true⟩
         else ⟨((List.range y).foldl (rowStep x ((x + 7) / 8) rows)
           ⟨init, [], none⟩).flushes, false, true⟩) := rfl
  rw [h0, hbad]

theorem pbm2brundlefab_of_badRow_some (x y i : ℕ) (rows : List (List ℕ))
    (init : List ℕ)
    (hbad : ((List.range y).foldl (rowStep x ((x + 7) / 8) rows)
      ⟨init, [], none⟩).badRow = some i) :
    pbm2brundlefab (some (4, x, y)) rows init =
      ⟨((List.range y).foldl (rowStep x ((x + 7) / 8) rows)
        ⟨init, [], none⟩).flushes, true, false⟩ := by
  have h0 : pbm2brundlefab (some (4, x, y)) rows init =
      (match ((List.range y).foldl (rowStep x ((x + 7) / 8) rows)
          ⟨init, [], none⟩).badRow with
       | some _ => ⟨((List.range y).foldl (rowStep x ((x + 7) / 8) rows)
           ⟨init, [], none⟩).flushes, true, false⟩
       | none =>
         if y % toolbits ≠ toolbits - 1 then
           ⟨((List.range y).foldl (rowStep x ((x + 7) / 8) rows)
               ⟨init, [], none⟩).flushes ++
             [(y, ((List.range y).foldl (rowStep x ((x + 7) / 8) rows)
               ⟨init, [], none⟩).toolmask)], false, true⟩
         else ⟨((List.range y).foldl (rowStep x ((x + 7) / 8) rows)
           ⟨init, [], none⟩).flushes, false, true⟩) := rfl
  rw [h0, hbad]

theorem loop_err (x stride : ℕ) (rows : List (List ℕ)) (init : List ℕ)
    (y i : ℕ) (hi : i < y) (hbadlen : (rows.getD i []).length ≠ stride)
    (hok : ∀ k, k < i → (rows.getD k []).length = stride) :
    ((List.range y).foldl (rowStep x stride rows)
      ⟨init, [], none⟩).badRow = some i ∧
    ((List.range y).foldl (rowStep x stride rows)
      ⟨init, [], none⟩).flushes.map Prod.fst =
      (List.range i).filter (fun k => k % toolbits = toolbits - 1) := by
  obtain ⟨hbad, hmap⟩ := loop_ok x stride rows init i hok
  have hsplit : List.range y = List.range (i + 1) ++
      (List.range (y - (i + 1))).map (fun k => (i + 1) + k) := by
    rw [← List.range_add]
    congr 1
    omega
  rw [hsplit, List.foldl_append, List.range_succ, List.foldl_append,
    List.foldl_cons, List.foldl_nil]
  have hstep : rowStep x stride rows
      ((List.range i).foldl (rowStep x stride rows) ⟨init, [], none⟩) i =
      { (List.range i).foldl (rowStep x stride rows) ⟨init, [], none⟩ with
        badRow := some i } := by
    rw [show rowStep x stride rows
        ((List.range i).foldl (rowStep x stride rows) ⟨init, [], none⟩) i =
      (if ((List.range i).foldl (rowStep x stride rows)
          ⟨init, [], none⟩).badRow.isSome then
        (List.range i).foldl (rowStep x stride rows) ⟨init, [], none⟩
       else if (rows.getD i []).length ≠ stride then
        { (List.range i).foldl (rowStep x stride rows) ⟨init, [], none⟩ with
          badRow := some i }
       else if i % toolbits = toolbits - 1 then
        { toolmask := List.replicate x 0,
          flushes := ((List.range i).foldl (rowStep x stride rows)
            ⟨init, [], none⟩).flushes ++
            [(i, accumulate ((List.range i).foldl (rowStep x stride rows)
              ⟨init, [], none⟩).toolmask (rows.getD i []) (i % toolbits))],
          badRow := none }
       else
        { (List.range i).foldl (rowStep x stride rows) ⟨init, [], none⟩ with
          toolmask := accumulate ((List.range i).foldl (rowStep x stride rows)
            ⟨init, [], none⟩).toolmask (rows.getD i []) (i % toolbits) })
      from rfl]
    rw [if_neg (by simp [hbad]), if_pos hbadlen]
  rw [hstep, rowStep_stuck x stride rows _ _ (by simp)]
  exact ⟨rfl, hmap⟩

theorem loop_zero (x stride : ℕ) (rows : List (List ℕ)) (init : List ℕ) :
    ∀ y, (∀ i, i < y → (rows.getD i []).length = stride ∧
        ∀ b ∈ rows.getD i [], b = 0) →
      (∀ v ∈ init, v = 0) →
      (∀ v ∈ ((List.range y).foldl (rowStep x stride rows)
        ⟨init, [], none⟩).toolmask, v = 0) ∧
      (∀ p ∈ ((List.range y).foldl (rowStep x stride rows)
        ⟨init, [], none⟩).flushes, ∀ v ∈ p.2, v = 0) ∧
      ((List.range y).foldl (rowStep x stride rows)
        ⟨init, [], none⟩).badRow = none := by
  intro y
  induction y with
  | zero => intro h hinit; exact ⟨hinit, by simp, rfl⟩
  | succ y ih =>
    intro h hinit
    obtain ⟨htm, hfl, hbad⟩ := ih (fun i hi => h i (by omega)) hinit
    rw [List.range_succ, List.foldl_append, List.foldl_cons, List.foldl_nil]
    rw [rowStep_ok x stride rows _ y hbad (h y (by omega)).1]
    have hacc : accumulate ((List.range y).foldl (rowStep x stride rows)
        ⟨init, [], none⟩).toolmask (rows.getD y []) (y % toolbits) =
        ((List.range y).foldl (rowStep x stride rows)
          ⟨init, [], none⟩).toolmask :=
      accumFrom_zero_row (rows.getD y []) (y % toolbits)
        (h y (by omega)).2 _ 0
    by_cases hb : y % toolbits = toolbits - 1
    · rw [if_pos hb]
      refine ⟨?_, ?_, rfl⟩
      · intro v hv
        exact List.eq_of_mem_replicate hv
      · intro p hp
        rcases List.mem_append.mp hp with hp1 | hp2
        · exact hfl p hp1
        · have hpe : p = (y, accumulate ((List.range y).foldl
              (rowStep x stride rows) ⟨init, [], none⟩).toolmask
              (rows.getD y []) (y % toolbits)) := by
            simpa using hp2
          rw [hpe, hacc]
          exact htm
    · rw [if_neg hb]
      refine ⟨?_, hfl, hbad⟩
      intro v hv
      rw [hacc] at hv
      exact htm v hv

/-- Flush events of a complete (error-free) run: the in-loop flushes at
rows 12k+11 plus, when y mod 12 ≠ 11, one post-loop flush at line y. -/
theorem flushLines_eq (x y : ℕ) (rows : List (List ℕ)) (init : List ℕ)
    (h : ∀ i, i < y → (rows.getD i []).length = (x + 7) / 8) :
    (pbm2brundlefab (some (4, x, y)) rows init).flushes.map Prod.fst =
      (List.range y).filter (fun i => i % toolbits = toolbits - 1) ++
      (if y % toolbits ≠ toolbits - 1 then [y] else []) := by
  obtain ⟨hbad, hmap⟩ := loop_ok x ((x + 7) / 8) rows init y h
  rw [pbm2brundlefab_of_badRow_none x y rows init hbad]
  by_cases hy : y % toolbits ≠ toolbits - 1
  · rw [if_pos hy, if_pos hy]
    simp only [List.map_append, hmap]
    rfl
  · rw [if_neg hy, if_neg hy]
    simpa using hmap

/-! ## Claim C2: band boundaries -/

/-- C2, counterexample: height 11 is not a multiple of the jet count 12,
yet a 1-wide all-dark bitmap of 11 rows produces no flush at all: the
post-loop test i % toolbits != toolbits - 1 is false at i = y = 11, so
the trailing partial band is dropped, not emitted. -/
theorem C2_counterexample :
    (11 : ℕ) % 12 ≠ 0 ∧
    (pbm2brundlefab (some (4, 1, 11)) (List.replicate 11 [128]) [0]).flushes
      = [] := by
  decide

/-- C2, amended: with full rows, the flush events are the in-loop flushes
at rows 12k+11 plus one post-loop flush at line y exactly when
y mod 12 ≠ 11; so the trailing partial band is emitted exactly once after
all input is consumed unless height mod 12 = 11, in which case it is never
emitted. For height 30 and jet count 12 this gives three band groups:
after rows 12 and 24 (lines 11 and 23) and one final partial band of rows
24-29 (toolmask bits 0-5). -/
theorem C2_amended :
    (∀ x y rows init, (∀ i, i < y → (rows.getD i []).length = (x + 7) / 8) →
      (pbm2brundlefab (some (4, x, y)) rows init).flushes.map Prod.fst =
        (List.range y).filter (fun i => i % toolbits = toolbits - 1) ++
        (if y % toolbits ≠ toolbits - 1 then [y] else [])) ∧
    (pbm2brundlefab (some (4, 1, 30)) (List.replicate 30 [128]) [0]).flushes =
      [(11, [4095]), (23, [4095]), (30, [63])] :=
  ⟨flushLines_eq, by decide⟩

/-- C2, witness: the amended flush-event law instantiated on a one-row
blank bitmap of width 1, which gets a single post-loop flush at line 1. -/
theorem C2_amended_witness :
    (pbm2brundlefab (some (4, 1, 1)) [[0]] [0]).flushes.map Prod.fst =
      (List.range 1).filter (fun i => i % toolbits = toolbits - 1) ++
      (if 1 % toolbits ≠ toolbits - 1 then [1] else []) :=
  C2_amended.1 1 1 [[0]] [0] (by decide)

/-! ## Claim C4: accumulator initialisation -/

/-- C4: evaluation at the failing input. The toolmask accumulator comes
from malloc and is never cleared before the first band, so the first band
does not start all-zero: with malloc contents [7], the blank 1-by-1
bitmap P4 1 1 flushes the toolmask [7] and prints output; with zeroed
contents the same bitmap flushes [0] and prints nothing. Bands after the
first do start zeroed (memset runs after each in-loop flush). -/
theorem C4_code_bug :
    (pbm2brundlefab (some (4, 1, 1)) [[0]] [7]).flushes = [(1, [7])] ∧
    outputOf (pbm2brundlefab (some (4, 1, 1)) [[0]] [7]).flushes ≠ [] ∧
    (pbm2brundlefab (some (4, 1, 1)) [[0]] [0]).flushes = [(1, [0])] ∧
    outputOf (pbm2brundlefab (some (4, 1, 1)) [[0]] [0]).flushes = [] := by
  refine ⟨by decide, ?_, by decide, ?_⟩
  · intro hempty
    have h1 : (pbm2brundlefab (some (4, 1, 1)) [[0]] [7]).flushes
        = [(1, [7])] := by decide
    rw [h1] at hempty
    have h2 : outputOf [(1, [7])] =
        emit_toolmask [7] toolbits 1 ++ [] := rfl
    rw [h2] at hempty
    have h3 : firstNonzero [7] = 0 := by decide
    have h4 : emit_toolmask [7] toolbits 1 =
        Line.T0 ::
        Line.G0 (((1 / toolbits : ℕ) : ℚ) * MM_PER_ROW)
          ((firstNonzero [7] : ℚ) * (MM_PER_ROW / (toolbits : ℚ))) 1 ::
        emitRuns [7] 1 (MM_PER_ROW / (toolbits : ℚ)) (firstNonzero [7])
          (firstNonzero [7] + 1) (1 - (firstNonzero [7] + 1)) := by
      simp [emit_toolmask, h3]
    rw [h4] at hempty
    simp at hempty
  · have h1 : (pbm2brundlefab (some (4, 1, 1)) [[0]] [0]).flushes
        = [(1, [0])] := by decide
    rw [h1]
    have h2 : outputOf [(1, [0])] =
        emit_toolmask [0] toolbits 1 ++ [] := rfl
    rw [h2, emit_toolmask_blank [0] toolbits 1 (by decide)]
    rfl

/-! ## Claim C5: each band flushed exactly once -/

/-- C5, counterexample: for height 23 (23 mod 12 = 11) the full band of
rows 0-11 is flushed at line 11, but the final partial band of rows 12-22
is never flushed at end of input: the run's only flush event is (11, _),
contradicting that the final short band is always flushed once. -/
theorem C5_counterexample :
    (pbm2brundlefab (some (4, 1, 23)) (List.replicate 23 [128]) [0]).flushes
      = [(11, [4095])] := by
  decide

/-- C5, amended: with full rows, the flush lines are pairwise distinct
(nothing is flushed twice); every full band k (last row 12k+11 < y) is
flushed exactly once, at its last row; the final short band is flushed
exactly once at end of input when y mod 12 ≠ 11 (line y; for
y mod 12 = 0 that flush carries an empty band) and never when
y mod 12 = 11. -/
theorem C5_amended (x y : ℕ) (rows : List (List ℕ)) (init : List ℕ) (k : ℕ)
    (h : ∀ i, i < y → (rows.getD i []).length = (x + 7) / 8) :
    ((pbm2brundlefab (some (4, x, y)) rows init).flushes.map Prod.fst).Nodup ∧
    (toolbits * k + (toolbits - 1) < y →
      ((pbm2brundlefab (some (4, x, y)) rows init).flushes.map Prod.fst).count
        (toolbits * k + (toolbits - 1)) = 1) ∧
    (y % toolbits ≠ toolbits - 1 →
      ((pbm2brundlefab (some (4, x, y)) rows init).flushes.map Prod.fst).count
        y = 1) ∧
    (y % toolbits = toolbits - 1 →
      y ∉ (pbm2brundlefab (some (4, x, y)) rows init).flushes.map Prod.fst) := by
  rw [flushLines_eq x y rows init h]
  have hnodupf : ((List.range y).filter
      (fun i => i % toolbits = toolbits - 1)).Nodup :=
    (List.nodup_range y).filter _
  have hymem : y ∉ (List.range y).filter
      (fun i => i % toolbits = toolbits - 1) := by
    intro hy
    have := List.mem_range.mp (List.mem_of_mem_filter hy)
    omega
  refine ⟨?_, ?_, ?_, ?_⟩
  · by_cases hy : y % toolbits ≠ toolbits - 1
    · rw [if_pos hy]
      refine List.Nodup.append hnodupf (by simp) ?_
      intro a ha hb
      have h1 := List.mem_range.mp (List.mem_of_mem_filter ha)
      have h2 : a = y := by simpa using hb
      omega
    · rw [if_neg hy]
      simpa using hnodupf
  · intro hk
    have hmem : toolbits * k + (toolbits - 1) ∈
        (List.range y).filter (fun i => i % toolbits = toolbits - 1) := by
      refine List.mem_filter.mpr ⟨List.mem_range.mpr hk, ?_⟩
      simp [toolbits]
      omega
    rw [List.count_append]
    have hc1 : ((List.range y).filter
        (fun i => i % toolbits = toolbits - 1)).count
        (toolbits * k + (toolbits - 1)) = 1 :=
      List.count_eq_one_of_mem hnodupf hmem
    rw [hc1]
    by_cases hy : y % toolbits ≠ toolbits - 1
    · rw [if_pos hy]
      have hne : toolbits * k + (toolbits - 1) ≠ y := by
        intro he
        apply hy
        rw [← he]
        simp [toolbits]
        omega
      simp [hne]
    · rw [if_neg hy]
      rfl
  · intro hy
    rw [if_pos hy, List.count_append]
    have hc1 : ((List.range y).filter
        (fun i => i % toolbits = toolbits - 1)).count y = 0 :=
      List.count_eq_zero.mpr hymem
    rw [hc1]
    simp
  · intro hy
    rw [if_neg (by simp [hy]), List.append_nil]
    exact hymem

/-- C5, witness: the once-flushed law instantiated on a blank 12-row
bitmap of width 1: flush lines [11, 12], the full band counted once at
line 11, the post-loop flush once at line 12. -/
theorem C5_amended_witness :
    ((pbm2brundlefab (some (4, 1, 12)) (List.replicate 12 [0]) [0]).flushes.map
      Prod.fst).Nodup ∧
    (toolbits * 0 + (toolbits - 1) < 12 →
      ((pbm2brundlefab (some (4, 1, 12)) (List.replicate 12 [0]) [0]).flushes.map
        Prod.fst).count (toolbits * 0 + (toolbits - 1)) = 1) ∧
    (12 % toolbits ≠ toolbits - 1 →
      ((pbm2brundlefab (some (4, 1, 12)) (List.replicate 12 [0]) [0]).flushes.map
        Prod.fst).count 12 = 1) ∧
    (12 % toolbits = toolbits - 1 →
      12 ∉ (pbm2brundlefab (some (4, 1, 12)) (List.replicate 12 [0]) [0]).flushes.map
        Prod.fst) :=
  C5_amended 1 12 (List.replicate 12 [0]) [0] 0 (by decide)

/-! ## Claim C6: error handling -/

/-- C6: an unparsable header or one whose type is not 4 makes the run
report an error and exit with failure before any flush (so before any
output); a short row read at index i (all earlier rows full) makes the
run report an error and exit with failure mid-stream, keeping exactly the
flushes of the bands completed before row i; a run whose rows are all
full exits with success and no error. -/
theorem C6_error_handling :
    (∀ rows init, pbm2brundlefab none rows init = ⟨[], true, false⟩) ∧
    (∀ t x y rows init, t ≠ 4 →
      pbm2brundlefab (some (t, x, y)) rows init = ⟨[], true, false⟩) ∧
    (∀ x y rows init i, i < y →
      (rows.getD i []).length ≠ (x + 7) / 8 →
      (∀ k, k < i → (rows.getD k []).length = (x + 7) / 8) →
      (pbm2brundlefab (some (4, x, y)) rows init).err = true ∧
      (pbm2brundlefab (some (4, x, y)) rows init).ok = false ∧
      (pbm2brundlefab (some (4, x, y)) rows init).flushes.map Prod.fst =
        (List.range i).filter (fun k => k % toolbits = toolbits - 1)) ∧
    (∀ x y rows init, (∀ i, i < y → (rows.getD i []).length = (x + 7) / 8) →
      (pbm2brundlefab (some (4, x, y)) rows init).err = false ∧
      (pbm2brundlefab (some (4, x, y)) rows init).ok = true) := by
  refine ⟨fun rows init => rfl, ?_, ?_, ?_⟩
  · intro t x y rows init ht
    rw [show pbm2brundlefab (some (t, x, y)) rows init =
      (if t ≠ 4 then (⟨[], true, false⟩ : RunResult)
       else
        match ((List.range y).foldl (rowStep x ((x + 7) / 8) rows)
            ⟨init, [], none⟩).badRow with
        | some _ => ⟨((List.range y).foldl (rowStep x ((x + 7) / 8) rows)
            ⟨init, [], none⟩).flushes, true, false⟩
        | none =>
          if y % toolbits ≠ toolbits - 1 then
            ⟨((List.range y).foldl (rowStep x ((x + 7) / 8) rows)
                ⟨init, [], none⟩).flushes ++
              [(y, ((List.range y).foldl (rowStep x ((x + 7) / 8) rows)
                ⟨init, [], none⟩).toolmask)], false, true⟩
          else ⟨((List.range y).foldl (rowStep x ((x + 7) / 8) rows)
            ⟨init, [], none⟩).flushes, false, true⟩) from rfl, if_pos ht]
  · intro x y rows init i hi hbadlen hok
    obtain ⟨hbad, hmap⟩ := loop_err x ((x + 7) / 8) rows init y i hi hbadlen hok
    rw [pbm2brundlefab_of_badRow_some x y i rows init hbad]
    exact ⟨rfl, rfl, hmap⟩
  · intro x y rows init h
    obtain ⟨hbad, hmap⟩ := loop_ok x ((x + 7) / 8) rows init y h
    rw [pbm2brundlefab_of_badRow_none x y rows init hbad]
    by_cases hy : y % toolbits ≠ toolbits - 1
    · rw [if_pos hy]
      exact ⟨rfl, rfl⟩
    · rw [if_neg hy]
      exact ⟨rfl, rfl⟩

/-- C6, witness: the mid-stream case at the concrete input P4 1 2 with
only one row supplied: the second read comes short, the run errs with no
completed band flushed. -/
theorem C6_witness :
    (pbm2brundlefab (some (4, 1, 2)) [[128]] [0]).err = true ∧
    (pbm2brundlefab (some (4, 1, 2)) [[128]] [0]).ok = false ∧
    (pbm2brundlefab (some (4, 1, 2)) [[128]] [0]).flushes.map Prod.fst =
      (List.range 1).filter (fun k => k % toolbits = toolbits - 1) :=
  C6_error_handling.2.2.1 1 2 [[128]] [0] 1 (by decide) (by decide)
    (by decide)

/-! ## Claim C7: blank bands -/

/-- C7: the first half of the claim holds unconditionally: a toolmask row
whose entries are all zero makes emit_toolmask print nothing at all. The
claimed consequence for whole bitmaps fails on the code: the first
band's accumulator is the uninitialized malloc memory (claim C4's bug),
so an all-zero bitmap can produce pattern-select and motion lines — with
malloc contents [7, 0] the all-zero 2-by-1 bitmap prints one T1
pattern-select line carrying 7 and one G1 motion line. With the
accumulator starting all zero, as the memset-after-flush discipline
intends, an all-zero bitmap produces no output lines whatsoever. -/
theorem C7_code_bug :
    (∀ tm tb ln, (∀ v ∈ tm, v = 0) → emit_toolmask tm tb ln = []) ∧
    patternsOf (outputOf
      (pbm2brundlefab (some (4, 2, 1)) [[0]] [7, 0]).flushes) = [7] ∧
    (sprayYs (outputOf
      (pbm2brundlefab (some (4, 2, 1)) [[0]] [7, 0]).flushes)).length = 1 ∧
    (∀ x y rows init,
      (∀ i, i < y → (rows.getD i []).length = (x + 7) / 8 ∧
        ∀ b ∈ rows.getD i [], b = 0) →
      (∀ v ∈ init, v = 0) →
      outputOf (pbm2brundlefab (some (4, x, y)) rows init).flushes = []) := by
  refine ⟨emit_toolmask_blank, by decide, by decide, ?_⟩
  intro x y rows init h hinit
  obtain ⟨htm, hfl, hbad⟩ := loop_zero x ((x + 7) / 8) rows init y h hinit
  rw [pbm2brundlefab_of_badRow_none x y rows init hbad]
  by_cases hy : y % toolbits ≠ toolbits - 1
  · rw [if_pos hy]
    refine outputOf_blank _ ?_
    intro p hp
    rcases List.mem_append.mp hp with hp1 | hp2
    · exact hfl p hp1
    · have hpe : p = (y, ((List.range y).foldl
          (rowStep x ((x + 7) / 8) rows) ⟨init, [], none⟩).toolmask) := by
        simpa using hp2
      rw [hpe]
      exact htm
  · rw [if_neg hy]
    exact outputOf_blank _ hfl

/-- C7, witness: the blank row [0, 0] emits nothing, and the blank 1-by-1
bitmap with a zeroed accumulator produces no output lines. -/
theorem C7_witness :
    emit_toolmask [0, 0] 12 0 = [] ∧
    outputOf (pbm2brundlefab (some (4, 1, 1)) [[0]] [0]).flushes = [] :=
  ⟨C7_code_bug.1 [0, 0] 12 0 (by decide),
   C7_code_bug.2.2.2 1 1 [[0]] [0] (by decide) (by decide)⟩

/-! ## Claim C8: MSB-first bit accumulation -/

theorem accumFrom_length (row : List ℕ) (bit : ℕ) :
    ∀ (tm : List ℕ) (j : ℕ), (accumFrom row bit j tm).length = tm.length := by
  intro tm
  induction tm with
  | nil => intro j; rfl
  | cons v tm ih =>
    intro j
    rw [show accumFrom row bit j (v :: tm) =
      (if (row.getD (j >>> 3) 0) &&& (1 <<< (7 - (j &&& 7))) ≠ 0 then
        v ||| (1 <<< bit)
      else v) :: accumFrom row bit (j + 1) tm from rfl]
    simp [ih (j + 1)]

theorem accumFrom_getD (row : List ℕ) (bit : ℕ) :
    ∀ (tm : List ℕ) (j k : ℕ), k < tm.length →
      (accumFrom row bit j tm).getD k 0 =
        (if (row.getD ((j + k) >>> 3) 0) &&& (1 <<< (7 - ((j + k) &&& 7))) ≠ 0
         then tm.getD k 0 ||| (1 <<< bit) else tm.getD k 0) := by
  intro tm
  induction tm with
  | nil => intro j k hk; simp at hk
  | cons v tm ih =>
    intro j k hk
    rw [show accumFrom row bit j (v :: tm) =
      (if (row.getD (j >>> 3) 0) &&& (1 <<< (7 - (j &&& 7))) ≠ 0 then
        v ||| (1 <<< bit)
      else v) :: accumFrom row bit (j + 1) tm from rfl]
    cases k with
    | zero => simp
    | succ k =>
      rw [List.getD_cons_succ, List.getD_cons_succ,
        ih (j + 1) k (by simpa using hk),
        show j + 1 + k = j + (k + 1) from by omega]

theorem testBit_of_and_shift (c m : ℕ) :
    ((c &&& (1 <<< m) ≠ 0) ↔ c.testBit m) := by
  rw [show (1 <<< m) = 2 ^ m from by rw [Nat.shiftLeft_eq, one_mul],
    Nat.and_two_pow]
  cases h : c.testBit m <;> simp [h]

/-- C8: accumulating a bitmap row at offset bit within the band ORs
2 to the power bit into the toolmask entry of exactly those columns j
whose row byte j / 8 has bit 7 - j % 8 set (MSB-first columns), keeping
the row's length; in particular a single-row band (jet count 1, offset 0)
with row byte 0xA0 = 160 and width 8 yields [1,0,1,0,0,0,0,0]. -/
theorem C8_accumulate_msb_first :
    (∀ tm row bit j, j < tm.length →
      (accumulate tm row bit).getD j 0 =
        (if (row.getD (j / 8) 0).testBit (7 - j % 8)
         then tm.getD j 0 ||| (1 <<< bit) else tm.getD j 0)) ∧
    (∀ tm row bit, (accumulate tm row bit).length = tm.length) ∧
    accumulate (List.replicate 8 0) [160] 0 = [1, 0, 1, 0, 0, 0, 0, 0] := by
  refine ⟨?_, fun tm row bit => accumFrom_length row bit tm 0, by decide⟩
  intro tm row bit j hj
  rw [show accumulate tm row bit = accumFrom row bit 0 tm from rfl,
    accumFrom_getD row bit tm 0 j hj]
  rw [show (0 + j) = j from by omega]
  rw [show j >>> 3 = j / 8 from by
      rw [Nat.shiftRight_eq_div_pow],
    show j &&& 7 = j % 8 from by
      rw [show (7 : ℕ) = 2 ^ 3 - 1 from rfl, Nat.and_pow_two_sub_one_eq_mod]]
  by_cases hb : (row.getD (j / 8) 0).testBit (7 - j % 8)
  · rw [if_pos ((testBit_of_and_shift _ _).mpr hb), if_pos hb]
  · rw [if_neg (fun hx => hb ((testBit_of_and_shift _ _).mp hx)), if_neg hb]

/-- C8, witness: the general form instantiated at column 2 of the
single-byte row 0xA0 accumulated at offset 0 into a zeroed row: byte 160
has bit 5 set, so entry 2 becomes 0 ||| 1 = 1. -/
theorem C8_witness :
    (accumulate (List.replicate 8 0) [160] 0).getD 2 0 =
      (if ((([160] : List ℕ).getD (2 / 8) 0).testBit (7 - 2 % 8))
       then (List.replicate 8 0).getD 2 0 ||| (1 <<< 0)
       else (List.replicate 8 0).getD 2 0) :=
  C8_accumulate_msb_first.1 (List.replicate 8 0) [160] 0 2 (by decide)

/-! ## Claim C9: base64 -/

theorem lor256 (a b : ℕ) (hb : b < 256) :
    ((a <<< 8) % 65536) ||| b = (a % 256) * 256 + b := by
  rw [Nat.shiftLeft_eq, show (2 : ℕ) ^ 8 = 256 from rfl,
    show (65536 : ℕ) = 256 * 256 from rfl, Nat.mul_mod_mul_right,
    Nat.mul_comm (a % 256) 256,
    show (256 : ℕ) = 2 ^ 8 from rfl,
    ← Nat.mul_add_lt_is_or (show b < 2 ^ 8 from hb) (a % (2 ^ 8))]

theorem base64_of_mod (x : ℕ) : base64_of x = base64_of (x % 64) := by
  simp only [base64_of, Nat.mod_mod_of_dvd x dvd_rfl]

theorem base64_of_congr {x y : ℕ} (h : x % 64 = y % 64) :
    base64_of x = base64_of y := by
  rw [base64_of_mod x, base64_of_mod y, h]

theorem b64_alphabet_lt : ∀ v, v < 64 → isB64Char (base64_of v) = true := by
  decide

theorem b64_value_lt : ∀ v, v < 64 → b64value (base64_of v) = v := by
  decide

theorem b64_ne_pad_lt : ∀ v, v < 64 → base64_of v ≠ '=' := by
  decide

theorem isB64Char_base64_of (x : ℕ) : isB64Char (base64_of x) = true := by
  rw [base64_of_mod x]
  exact b64_alphabet_lt (x % 64) (Nat.mod_lt x (by norm_num))

theorem b64value_base64_of (x : ℕ) : b64value (base64_of x) = x % 64 := by
  rw [base64_of_mod x]
  exact b64_value_lt (x % 64) (Nat.mod_lt x (by norm_num))

theorem base64_of_ne_pad (x : ℕ) : base64_of x ≠ '=' := by
  rw [base64_of_mod x]
  exact b64_ne_pad_lt (x % 64) (Nat.mod_lt x (by norm_num))

theorem b64byte_bit0 (buff b : ℕ) :
    b64byte (buff, 0) b =
      ((((buff <<< 8) % 65536) ||| b, 2),
       [base64_of ((((buff <<< 8) % 65536) ||| b) >>> 2)]) := rfl

theorem b64byte_bit2 (buff b : ℕ) :
    b64byte (buff, 2) b =
      ((((buff <<< 8) % 65536) ||| b, 4),
       [base64_of ((((buff <<< 8) % 65536) ||| b) >>> 4)]) := rfl

theorem b64byte_bit4 (buff b : ℕ) :
    b64byte (buff, 4) b =
      ((((buff <<< 8) % 65536) ||| b, 0),
       [base64_of ((((buff <<< 8) % 65536) ||| b) >>> 6),
        base64_of ((((buff <<< 8) % 65536) ||| b) >>> 0)]) := rfl

theorem b64loop_cons (st : ℕ × ℕ) (b : ℕ) (bs : List ℕ) :
    b64loop st (b :: bs) =
      ((b64byte st b).2 ++ (b64loop (b64byte st b).1 bs).1,
       (b64loop (b64byte st b).1 bs).2) := rfl

theorem mod256_absorb (a b : ℕ) (hb : b < 256) :
    ((a % 256) * 256 + b) % 256 = b := by
  omega

theorem charA (buff b1 : ℕ) :
    base64_of (((buff % 256) * 256 + b1) >>> 2) = base64_of (b1 / 4) := by
  apply base64_of_congr
  rw [Nat.shiftRight_eq_div_pow, show (2 : ℕ) ^ 2 = 4 from rfl]
  omega

theorem charB (b1 b2 : ℕ) :
    base64_of ((b1 * 256 + b2) >>> 4) = base64_of (b1 % 4 * 16 + b2 / 16) := by
  apply base64_of_congr
  rw [Nat.shiftRight_eq_div_pow, show (2 : ℕ) ^ 4 = 16 from rfl]
  omega

theorem charC (b2 b3 : ℕ) :
    base64_of ((b2 * 256 + b3) >>> 6) = base64_of (b2 % 16 * 4 + b3 / 64) := by
  apply base64_of_congr
  rw [Nat.shiftRight_eq_div_pow, show (2 : ℕ) ^ 6 = 64 from rfl]
  omega

theorem charD (b2 b3 : ℕ) :
    base64_of ((b2 * 256 + b3) >>> 0) = base64_of (b3 % 64) := by
  apply base64_of_congr
  rw [Nat.shiftRight_eq_div_pow, show (2 : ℕ) ^ 0 = 1 from rfl]
  omega

theorem charT2 (buff b1 : ℕ) :
    base64_of (((buff % 256) * 256 + b1) <<< 4) = base64_of (b1 % 4 * 16) := by
  apply base64_of_congr
  rw [Nat.shiftLeft_eq, show (2 : ℕ) ^ 4 = 16 from rfl]
  omega

theorem charT4 (b1 b2 : ℕ) :
    base64_of ((b1 * 256 + b2) <<< 2) = base64_of (b2 % 16 * 4) := by
  apply base64_of_congr
  rw [Nat.shiftLeft_eq, show (2 : ℕ) ^ 2 = 4 from rfl]
  omega

theorem b64loop_nil (st : ℕ × ℕ) : b64loop st [] = ([], st) := rfl

theorem b64tail_bit0 (buff : ℕ) : b64tail (buff, 0) = [] := rfl

theorem b64tail_bit2 (buff : ℕ) :
    b64tail (buff, 2) = [base64_of (buff <<< 4), '=', '='] := rfl

theorem b64tail_bit4 (buff : ℕ) :
    b64tail (buff, 4) = [base64_of (buff <<< 2), '='] := rfl

theorem mod256_add (a b : ℕ) (hb : b < 256) : (a * 256 + b) % 256 = b := by
  omega

theorem b64emit_eq_chunks :
    ∀ (bs : List ℕ), (∀ b ∈ bs, b < 256) → ∀ buff,
      (b64loop (buff, 0) bs).1 ++ b64tail (b64loop (buff, 0) bs).2 =
        b64chunks bs
  | [], _, buff => rfl
  | [b1], h, buff => by
    have hb1 : b1 < 256 := h b1 (by simp)
    rw [b64loop_cons, b64byte_bit0, lor256 buff b1 hb1, b64loop_nil]
    rw [show ((([base64_of (((buff % 256) * 256 + b1) >>> 2)], 2) :
        List Char × ℕ).1 ++
      (([] : List Char), ((buff % 256) * 256 + b1, (2 : ℕ))).1,
      (([] : List Char), ((buff % 256) * 256 + b1, (2 : ℕ))).2) =
      ([base64_of (((buff % 256) * 256 + b1) >>> 2)],
       ((buff % 256) * 256 + b1, (2 : ℕ))) from by simp]
    rw [show (([base64_of (((buff % 256) * 256 + b1) >>> 2)],
       ((buff % 256) * 256 + b1, (2 : ℕ))) :
        List Char × ℕ × ℕ).1 ++ b64tail (([base64_of (((buff % 256) * 256 + b1) >>> 2)],
       ((buff % 256) * 256 + b1, (2 : ℕ))) :
        List Char × ℕ × ℕ).2 =
      [base64_of (((buff % 256) * 256 + b1) >>> 2)] ++
        b64tail ((buff % 256) * 256 + b1, 2) from rfl]
    rw [b64tail_bit2, charA, charT2]
    rfl
  | [b1, b2], h, buff => by
    have hb1 : b1 < 256 := h b1 (by simp)
    have hb2 : b2 < 256 := h b2 (by simp)
    rw [b64loop_cons, b64byte_bit0, lor256 buff b1 hb1,
      b64loop_cons, b64byte_bit2, lor256 _ b2 hb2,
      mod256_add (buff % 256) b1 hb1, b64loop_nil]
    simp only [List.cons_append, List.nil_append, List.singleton_append]
    rw [b64tail_bit4, charA, charB, charT4]
    rfl
  | b1 :: b2 :: b3 :: bs, h, buff => by
    have hb1 : b1 < 256 := h b1 (by simp)
    have hb2 : b2 < 256 := h b2 (by simp)
    have hb3 : b3 < 256 := h b3 (by simp)
    rw [b64loop_cons, b64byte_bit0, lor256 buff b1 hb1,
      b64loop_cons, b64byte_bit2, lor256 _ b2 hb2,
      mod256_add (buff % 256) b1 hb1,
      b64loop_cons, b64byte_bit4, lor256 _ b3 hb3,
      mod256_add b1 b2 hb2]
    simp only [List.cons_append, List.nil_append, List.singleton_append,
      List.append_assoc]
    rw [charA, charB, charC, charD]
    rw [show b64chunks (b1 :: b2 :: b3 :: bs) =
      base64_of (b1 / 4) :: base64_of (b1 % 4 * 16 + b2 / 16) ::
      base64_of (b2 % 16 * 4 + b3 / 64) :: base64_of (b3 % 64) ::
      b64chunks bs from rfl]
    rw [← b64emit_eq_chunks bs (fun b hb => h b (by simp [hb]))
      (b2 * 256 + b3)]

theorem b64decode_pad2 (c1 c2 : Char) :
    b64decode [c1, c2, '=', '='] =
      [b64value c1 * 4 + b64value c2 / 16] := rfl

theorem b64decode_pad1 (c1 c2 c3 : Char) (h : c3 ≠ '=') :
    b64decode [c1, c2, c3, '='] =
      [b64value c1 * 4 + b64value c2 / 16,
       b64value c2 % 16 * 16 + b64value c3 / 4] := by
  rw [show b64decode [c1, c2, c3, '='] =
    (if c3 = '=' then [b64value c1 * 4 + b64value c2 / 16]
     else if ('=' : Char) = '=' then
       [b64value c1 * 4 + b64value c2 / 16,
        b64value c2 % 16 * 16 + b64value c3 / 4]
     else (b64value c1 * 4 + b64value c2 / 16) ::
       (b64value c2 % 16 * 16 + b64value c3 / 4) ::
       (b64value c3 % 4 * 64 + b64value '=') :: b64decode [])
    from rfl, if_neg h, if_pos rfl]

theorem b64decode_full (c1 c2 c3 c4 : Char) (rest : List Char)
    (h3 : c3 ≠ '=') (h4 : c4 ≠ '=') :
    b64decode (c1 :: c2 :: c3 :: c4 :: rest) =
      (b64value c1 * 4 + b64value c2 / 16) ::
      (b64value c2 % 16 * 16 + b64value c3 / 4) ::
      (b64value c3 % 4 * 64 + b64value c4) :: b64decode rest := by
  rw [show b64decode (c1 :: c2 :: c3 :: c4 :: rest) =
    (if c3 = '=' then [b64value c1 * 4 + b64value c2 / 16]
     else if c4 = '=' then
       [b64value c1 * 4 + b64value c2 / 16,
        b64value c2 % 16 * 16 + b64value c3 / 4]
     else (b64value c1 * 4 + b64value c2 / 16) ::
       (b64value c2 % 16 * 16 + b64value c3 / 4) ::
       (b64value c3 % 4 * 64 + b64value c4) :: b64decode rest)
    from rfl, if_neg h3, if_neg h4]

theorem b64decode_chunks :
    ∀ (bs : List ℕ), (∀ b ∈ bs, b < 256) → b64decode (b64chunks bs) = bs
  | [], _ => rfl
  | [b1], h => by
    have hb1 : b1 < 256 := h b1 (by simp)
    rw [show b64chunks [b1] =
      [base64_of (b1 / 4), base64_of (b1 % 4 * 16), '=', '='] from rfl]
    rw [b64decode_pad2, b64value_base64_of, b64value_base64_of]
    rw [show b1 / 4 % 64 * 4 + b1 % 4 * 16 % 64 / 16 = b1 from by omega]
  | [b1, b2], h => by
    have hb1 : b1 < 256 := h b1 (by simp)
    have hb2 : b2 < 256 := h b2 (by simp)
    rw [show b64chunks [b1, b2] =
      [base64_of (b1 / 4), base64_of (b1 % 4 * 16 + b2 / 16),
       base64_of (b2 % 16 * 4), '='] from rfl]
    rw [b64decode_pad1 _ _ _ (base64_of_ne_pad _),
      b64value_base64_of, b64value_base64_of, b64value_base64_of]
    rw [show b1 / 4 % 64 * 4 + (b1 % 4 * 16 + b2 / 16) % 64 / 16 = b1
      from by omega]
    rw [show (b1 % 4 * 16 + b2 / 16) % 64 % 16 * 16 + b2 % 16 * 4 % 64 / 4 = b2
      from by omega]
  | b1 :: b2 :: b3 :: bs, h => by
    have hb1 : b1 < 256 := h b1 (by simp)
    have hb2 : b2 < 256 := h b2 (by simp)
    have hb3 : b3 < 256 := h b3 (by simp)
    rw [show b64chunks (b1 :: b2 :: b3 :: bs) =
      base64_of (b1 / 4) :: base64_of (b1 % 4 * 16 + b2 / 16) ::
      base64_of (b2 % 16 * 4 + b3 / 64) :: base64_of (b3 % 64) ::
      b64chunks bs from rfl]
    rw [b64decode_full _ _ _ _ _ (base64_of_ne_pad _) (base64_of_ne_pad _)]
    rw [b64value_base64_of, b64value_base64_of, b64value_base64_of,
      b64value_base64_of]
    rw [b64decode_chunks bs (fun b hb => h b (by simp [hb]))]
    rw [show b1 / 4 % 64 * 4 + (b1 % 4 * 16 + b2 / 16) % 64 / 16 = b1
      from by omega]
    rw [show (b1 % 4 * 16 + b2 / 16) % 64 % 16 * 16 +
      (b2 % 16 * 4 + b3 / 64) % 64 / 4 = b2 from by omega]
    rw [show (b2 % 16 * 4 + b3 / 64) % 64 % 4 * 64 + b3 % 64 % 64 = b3
      from by omega]

theorem b64pads_add3 (n : ℕ) : b64pads (n + 3) = b64pads n := by
  simp [b64pads, Nat.add_mod_right]

theorem b64chunks_decomp :
    ∀ (bs : List ℕ),
      ∃ raw, b64chunks bs = raw ++ List.replicate (b64pads bs.length) '=' ∧
        ∀ c ∈ raw, isB64Char c = true
  | [] => ⟨[], rfl, by simp⟩
  | [b1] =>
    ⟨[base64_of (b1 / 4), base64_of (b1 % 4 * 16)], rfl, by
      intro c hc
      rcases List.mem_cons.mp hc with h1 | h2
      · rw [h1]; exact isB64Char_base64_of _
      · rw [show c = base64_of (b1 % 4 * 16) from by simpa using h2]
        exact isB64Char_base64_of _⟩
  | [b1, b2] =>
    ⟨[base64_of (b1 / 4), base64_of (b1 % 4 * 16 + b2 / 16),
      base64_of (b2 % 16 * 4)], rfl, by
      intro c hc
      rcases List.mem_cons.mp hc with h1 | h2
      · rw [h1]; exact isB64Char_base64_of _
      rcases List.mem_cons.mp h2 with h3 | h4
      · rw [h3]; exact isB64Char_base64_of _
      · rw [show c = base64_of (b2 % 16 * 4) from by simpa using h4]
        exact isB64Char_base64_of _⟩
  | b1 :: b2 :: b3 :: bs => by
    obtain ⟨raw, hraw, hmem⟩ := b64chunks_decomp bs
    refine ⟨base64_of (b1 / 4) :: base64_of (b1 % 4 * 16 + b2 / 16) ::
      base64_of (b2 % 16 * 4 + b3 / 64) :: base64_of (b3 % 64) :: raw, ?_, ?_⟩
    · rw [show b64chunks (b1 :: b2 :: b3 :: bs) =
        base64_of (b1 / 4) :: base64_of (b1 % 4 * 16 + b2 / 16) ::
        base64_of (b2 % 16 * 4 + b3 / 64) :: base64_of (b3 % 64) ::
        b64chunks bs from rfl, hraw]
      rw [show (b1 :: b2 :: b3 :: bs).length = bs.length + 3 from by simp]
      rw [b64pads_add3]
      rfl
    · intro c hc
      rcases List.mem_cons.mp hc with h1 | hc
      · rw [h1]; exact isB64Char_base64_of _
      rcases List.mem_cons.mp hc with h1 | hc
      · rw [h1]; exact isB64Char_base64_of _
      rcases List.mem_cons.mp hc with h1 | hc
      · rw [h1]; exact isB64Char_base64_of _
      rcases List.mem_cons.mp hc with h1 | hc
      · rw [h1]; exact isB64Char_base64_of _
      exact hmem c hc

/-- C9: the base64 encoder prints, before the terminating newline, a text
whose characters up to the trailing pads are all in the alphabet A-Z,
a-z, 0-9, '+', '/', followed by exactly 0, 2 or 1 trailing '=' characters
for payload lengths congruent to 0, 1, 2 modulo 3 respectively; standard
base64 decoding of that text reproduces the payload bytes exactly. -/
theorem C9_base64_padding_roundtrip (bytes : List ℕ)
    (h : ∀ b ∈ bytes, b < 256) :
    base64_emit bytes = b64chunks bytes ++ ['\n'] ∧
    b64chunks bytes =
      (b64chunks bytes).take ((b64chunks bytes).length - b64pads bytes.length)
        ++ List.replicate (b64pads bytes.length) '=' ∧
    (∀ c ∈ (b64chunks bytes).take
        ((b64chunks bytes).length - b64pads bytes.length),
      isB64Char c = true) ∧
    b64decode (b64chunks bytes) = bytes := by
  obtain ⟨raw, hraw, hmem⟩ := b64chunks_decomp bytes
  have htake : (b64chunks bytes).take
      ((b64chunks bytes).length - b64pads bytes.length) = raw := by
    rw [hraw, List.length_append, List.length_replicate]
    rw [show raw.length + b64pads bytes.length - b64pads bytes.length =
      raw.length from by omega]
    exact List.take_left raw _
  refine ⟨?_, ?_, ?_, b64decode_chunks bytes h⟩
  · rw [show base64_emit bytes =
      ((b64loop (0, 0) bytes).1 ++ b64tail (b64loop (0, 0) bytes).2)
        ++ ['\n'] from rfl,
      b64emit_eq_chunks bytes h 0]
  · rw [htake, ← hraw]
  · rw [htake]
    exact hmem

/-- C9, witness: the two-byte payload [77, 97] ("Ma"): the emitted text is
the encoded group followed by a newline, and decoding it gives the
payload back. -/
theorem C9_witness :
    base64_emit [77, 97] = b64chunks [77, 97] ++ ['\n'] ∧
    b64decode (b64chunks [77, 97]) = [77, 97] :=
  ⟨(C9_base64_padding_roundtrip [77, 97] (by decide)).1,
   (C9_base64_padding_roundtrip [77, 97] (by decide)).2.2.2⟩
